import Mathlib

/-!
Verification of the task-dependency orchestration design of the
software-engineer crew repository.

The concrete pipeline configuration (the eleven task definitions with their
context lists, the worker-agent registry, the hierarchical crew wiring, the
CLI entry operations and the environment bootstrap) is embedded from
`src/software_engineer/crew.py` and `src/software_engineer/main.py`.
The orchestration engine itself (dependency-graph builder, execution
coordinator, context aggregator, artifact writer, replay) is provided by the
external crewai framework and is therefore modelled from the spec where the
doc comment says so.
-/

namespace SWEngineer

/-- A task definition: identity, ordered dependency (context) list, assigned
agent, optional output artifact path.  Mirrors the keyword arguments of the
`Task(...)` constructions in `crew.py`. -/
structure TaskDef where
  name : String
  deps : List String
  agent : String
  output : Option String
deriving DecidableEq

/-- `crew.py` task `ingest_requirements`: document_analyst, no context. -/
def ingest_requirements : TaskDef :=
  ⟨"ingest_requirements", [], "document_analyst", some "output/REQUIREMENTS.md"⟩

/-- `crew.py` task `design_system_architecture`. -/
def design_system_architecture : TaskDef :=
  ⟨"design_system_architecture", ["ingest_requirements"], "backend_engineer",
   some "output/ARCHITECTURE.md"⟩

/-- `crew.py` task `validate_architecture`. -/
def validate_architecture : TaskDef :=
  ⟨"validate_architecture", ["ingest_requirements", "design_system_architecture"],
   "quality_assurance_agent", some "output/ARCHITECTURE_REVIEW.md"⟩

/-- `crew.py` task `design_database_layer`. -/
def design_database_layer : TaskDef :=
  ⟨"design_database_layer", ["design_system_architecture", "validate_architecture"],
   "database_engineer", some "output/DATABASE_DESIGN.md"⟩

/-- `crew.py` task `design_user_experience`. -/
def design_user_experience : TaskDef :=
  ⟨"design_user_experience", ["design_system_architecture", "validate_architecture"],
   "ux_designer", some "output/UX_DESIGN.md"⟩

/-- `crew.py` task `implement_backend_services` (no output file). -/
def implement_backend_services : TaskDef :=
  ⟨"implement_backend_services",
   ["design_system_architecture", "design_database_layer", "validate_architecture"],
   "backend_engineer", none⟩

/-- `crew.py` task `implement_frontend_application` (no output file). -/
def implement_frontend_application : TaskDef :=
  ⟨"implement_frontend_application",
   ["design_system_architecture", "design_user_experience", "validate_architecture"],
   "frontend_engineer", none⟩

/-- `crew.py` task `implement_testing_strategy`. -/
def implement_testing_strategy : TaskDef :=
  ⟨"implement_testing_strategy",
   ["implement_backend_services", "implement_frontend_application"],
   "test_engineer", some "output/TESTING_STRATEGY.md"⟩

/-- `crew.py` task `validate_implementation`. -/
def validate_implementation : TaskDef :=
  ⟨"validate_implementation",
   ["implement_backend_services", "implement_frontend_application",
    "implement_testing_strategy"],
   "quality_assurance_agent", some "output/IMPLEMENTATION_REVIEW.md"⟩

/-- `crew.py` task `create_deployment_package`. -/
def create_deployment_package : TaskDef :=
  ⟨"create_deployment_package",
   ["implement_backend_services", "implement_frontend_application",
    "validate_implementation"],
   "devops_engineer", some "output/DEPLOYMENT_GUIDE.md"⟩

/-- `crew.py` task `final_project_evaluation`. -/
def final_project_evaluation : TaskDef :=
  ⟨"final_project_evaluation",
   ["create_deployment_package", "validate_implementation"],
   "quality_assurance_agent", some "output/PROJECT_COMPLETION_REPORT.md"⟩

/-- The static task list passed to `Crew(tasks=...)` in `crew.py`, in the
order it is written there. -/
def crewTasks : List TaskDef :=
  [ingest_requirements, design_system_architecture, validate_architecture,
   design_database_layer, design_user_experience, implement_backend_services,
   implement_frontend_application, implement_testing_strategy,
   validate_implementation, create_deployment_package, final_project_evaluation]

/-- The worker-agent registry: the `@agent`-decorated methods of `crew.py`,
in definition order.  `engineering_lead` carries no `@agent` decorator and is
therefore not in this registry. -/
def workerAgents : List String :=
  ["document_analyst", "backend_engineer", "database_engineer",
   "frontend_engineer", "ux_designer", "test_engineer", "devops_engineer",
   "quality_assurance_agent"]

/-- The crew construction of `crew.py` (`Process.hierarchical`,
`manager_agent=self.engineering_lead()`). -/
structure CrewConfig where
  agents : List String
  taskList : List TaskDef
  hierarchical : Bool
  managerAgent : String
deriving DecidableEq

/-- The `Crew(...)` value returned by the `crew` method of `crew.py`. -/
def softwareEngineerCrew : CrewConfig :=
  { agents := workerAgents
    taskList := crewTasks
    hierarchical := true
    managerAgent := "engineering_lead" }

/-- Boolean membership of a string in a list, used by the executable model. -/
def memB (x : String) (l : List String) : Bool :=
  l.any (fun y => y == x)

/-- Errors of the Dependency Graph Builder, from the spec error taxonomy. -/
inductive GraphError where
  | CycleDetected : GraphError
  | UnknownDependency : String → String → GraphError
deriving DecidableEq

/-- Whether a dependency name is the identity of some task in the store. -/
def knownName (tasks : List TaskDef) (d : String) : Bool :=
  tasks.any (fun u => u.name == d)

/-- First (task, dependency) pair whose dependency names no task in the
store, scanning tasks in declaration order. -/
def firstUnknown (tasks : List TaskDef) : Option (String × String) :=
  tasks.findSome? fun t =>
    (t.deps.find? (fun d => !(knownName tasks d))).map (fun d => (t.name, d))

/-- A task is ready once every declared dependency is in `done`. -/
def isReady (done : List String) (t : TaskDef) : Bool :=
  t.deps.all (fun d => memB d done)

/-- Tasks whose identity is not yet in `done`, in declaration order. -/
def pendingTasks (tasks : List TaskDef) (done : List String) : List TaskDef :=
  tasks.filter (fun t => !(memB t.name done))

/-- Modelled from the spec: the ordering loop of the Dependency Graph Builder
(crewai provides the builder; it is not part of this repository).  At each
step the first not-yet-ordered task, in store declaration order, whose
dependencies are all already ordered is appended; if none exists while tasks
remain, the builder fails with `CycleDetected`. -/
def kahnAux (tasks : List TaskDef) : Nat → List String → Except GraphError (List String)
  | 0, done =>
    if pendingTasks tasks done = [] then .ok done else .error .CycleDetected
  | fuel + 1, done =>
    if pendingTasks tasks done = [] then .ok done
    else
      match (pendingTasks tasks done).find? (isReady done) with
      | none => .error .CycleDetected
      | some t => kahnAux tasks fuel (done ++ [t.name])

/-- Modelled from the spec: the Dependency Graph Builder.  It fails with
`UnknownDependency` when a task names an identity absent from the store,
fails with `CycleDetected` when a dependency chain returns to itself, and
otherwise returns the deterministic topological ordering. -/
def buildOrder (tasks : List TaskDef) : Except GraphError (List String) :=
  match firstUnknown tasks with
  | some td => .error (.UnknownDependency td.1 td.2)
  | none => kahnAux tasks tasks.length []

/-- `depEdge tasks a b` holds when the task named `a` declares `b` as a
dependency. -/
def depEdge (tasks : List TaskDef) (a b : String) : Prop :=
  ∃ t, t ∈ tasks ∧ t.name = a ∧ b ∈ t.deps

/-- A dependency chain from `x` returning to `x` itself. -/
def SelfReach (tasks : List TaskDef) (x : String) : Prop :=
  Relation.TransGen (depEdge tasks) x x

/-- A task set is acyclic when no dependency chain returns to its origin. -/
def Acyclic (tasks : List TaskDef) : Prop :=
  ∀ x, ¬ SelfReach tasks x

/-- Task identities are unique, as the spec data model requires. -/
def NamesNodup (tasks : List TaskDef) : Prop :=
  (tasks.map TaskDef.name).Nodup

/-- Every declared dependency names a task present in the store. -/
def DepsKnown (tasks : List TaskDef) : Prop :=
  ∀ t ∈ tasks, ∀ d ∈ t.deps, ∃ u, u ∈ tasks ∧ u.name = d

/-- `order` is a topological order for `tasks`: every task appears, after
each of its declared dependencies. -/
def IsTopo (tasks : List TaskDef) (order : List String) : Prop :=
  ∀ t ∈ tasks, t.name ∈ order ∧ ∀ d ∈ t.deps, List.Sublist [d, t.name] order

/-- A ranking certificate of acyclicity: dependencies rank strictly below
their dependents. -/
def HasRank (tasks : List TaskDef) (r : String → Nat) : Prop :=
  ∀ t ∈ tasks, ∀ d ∈ t.deps, r d < r t.name

/-- The task identities in the static `crew.py` declaration order. -/
def staticOrderNames : List String := crewTasks.map TaskDef.name

/-- Declaration index of a task identity in the static order. -/
def crewRank (s : String) : Nat := staticOrderNames.indexOf s

/-- First pending task, in store declaration order, whose dependencies are
all done: the deterministic tie-break of the Dependency Graph Builder. -/
def firstReady (tasks : List TaskDef) (done : List String) : Option TaskDef :=
  (pendingTasks tasks done).find? (isReady done)

/-- `order` is the greedy declaration-order schedule: it lists all tasks, and
each position holds exactly the first ready pending task given the prefix
before it. -/
def IsGreedy (tasks : List TaskDef) (order : List String) : Prop :=
  pendingTasks tasks order = [] ∧
  ∀ k (hk : k < order.length),
    (firstReady tasks (order.take k)).map TaskDef.name = some (order.get ⟨k, hk⟩)

/-- Leftmost lookup of a key in an association list of Execution Records. -/
def lookupR (k : String) : List (String × String) → Option String
  | [] => none
  | p :: rest => if p.1 == k then some p.2 else lookupR k rest

/-- Modelled from the spec: the Context Aggregator (crewai provides it; it is
not part of this repository).  Given the declared dependency list and the
Execution Records, returns the (dependency-identity, result-text) pairs in
dependency-declaration order, or nothing when some dependency has no record
yet (`DependencyNotReady`). -/
def aggregate (deps : List String) (recs : List (String × String)) :
    Option (List (String × String)) :=
  match deps with
  | [] => some []
  | d :: rest =>
    match lookupR d recs, aggregate rest recs with
    | some r, some l => some ((d, r) :: l)
    | _, _ => none

/-- Observable events of one pipeline run: a task dispatch carrying the
context bundle handed to the agent, a completion carrying the result text,
and an agent-invocation failure carrying the cause. -/
inductive Event where
  | dispatch : String → List (String × String) → Event
  | complete : String → String → Event
  | failure : String → String → Event
deriving DecidableEq

/-- Final status of a run: success, failure surfacing the originating task
identity and the cause, an internal stall, or a definition-time graph
error. -/
inductive RunStatus where
  | succeeded : RunStatus
  | failed : String → String → RunStatus
  | blocked : RunStatus
  | invalid : GraphError → RunStatus
deriving DecidableEq

/-- Coordinator state: the append-only Execution Record log (completion
order) and the observable event trace. -/
structure ExecState where
  records : List (String × String)
  trace : List Event
deriving DecidableEq

/-- Identities of the tasks that hold an Execution Record. -/
def doneNames (st : ExecState) : List String := st.records.map Prod.fst

/-- A delegation strategy: the manager picks a task identity among the ready
tasks (or declines, in which case static order applies). -/
def Strategy : Type := List TaskDef → Option String

/-- Agent invocation behaviour: task identity and context bundle to either a
result text or a failure cause. -/
def AgentF : Type := String → List (String × String) → Except String String

/-- The tasks currently runnable: pending with all dependencies recorded. -/
def readyList (tasks : List TaskDef) (st : ExecState) : List TaskDef :=
  (pendingTasks tasks (doneNames st)).filter (isReady (doneNames st))

/-- Modelled from the spec: the readiness validity gate of the Execution
Coordinator.  Whatever identity the manager strategy names, only a member of
the ready list is ever dispatched; an invalid or absent managerial choice
falls back to the first ready task in declaration order. -/
def gatedChoice (strat : Strategy) (ready : List TaskDef) : Option TaskDef :=
  match ready with
  | [] => none
  | r0 :: _ =>
    match strat ready with
    | none => some r0
    | some n =>
      match ready.find? (fun t => t.name == n) with
      | some t => some t
      | none => some r0

/-- Identities of the tasks completed in a trace, in completion order. -/
def completesOf (l : List Event) : List String :=
  l.filterMap fun e => match e with | Event.complete n _ => some n | _ => none

/-- Modelled from the spec: the dispatch loop of the Execution Coordinator
(crewai provides it; it is not part of this repository).  Each iteration
dispatches one gated choice with its aggregated context, synchronously awaits
the agent, records the Execution Record on success, and terminates the whole
run on the first agent-invocation failure. -/
def runLoop (tasks : List TaskDef) (agentF : AgentF) (strat : Strategy) :
    Nat → ExecState → RunStatus × ExecState
  | 0, st =>
    if pendingTasks tasks (doneNames st) = [] then (.succeeded, st) else (.blocked, st)
  | fuel + 1, st =>
    if pendingTasks tasks (doneNames st) = [] then (.succeeded, st)
    else
      match gatedChoice strat (readyList tasks st) with
      | none => (.blocked, st)
      | some t =>
        match aggregate t.deps st.records with
        | none => (.blocked, st)
        | some ctx =>
          match agentF t.name ctx with
          | .ok r =>
            runLoop tasks agentF strat fuel
              { records := st.records ++ [(t.name, r)]
                trace := st.trace ++ [Event.dispatch t.name ctx, Event.complete t.name r] }
          | .error e =>
            (.failed t.name e,
             { st with trace := st.trace ++ [Event.dispatch t.name ctx, Event.failure t.name e] })

/-- Modelled from the spec: `run(inputs)`.  Definition-time graph errors
abort before any task runs; otherwise the coordinator loop executes from an
empty record log. -/
def runPipeline (tasks : List TaskDef) (agentF : AgentF) (strat : Strategy) :
    RunStatus × ExecState :=
  match buildOrder tasks with
  | .error e => (.invalid e, ⟨[], []⟩)
  | .ok _ => runLoop tasks agentF strat tasks.length ⟨[], []⟩

/-- The Execution Records of the prior run kept by a replay from `fromId`:
those recorded before `fromId` was reached. -/
def seedOf (prior : List (String × String)) (fromId : String) : List (String × String) :=
  prior.takeWhile fun p => !(p.1 == fromId)

/-- Modelled from the spec: `replay(fromTaskId)`.  Resumes the coordinator
loop from the Execution Records recorded before `fromTaskId`, re-executing
from that point forward. -/
def replayPipeline (tasks : List TaskDef) (agentF : AgentF) (strat : Strategy)
    (prior : List (String × String)) (fromId : String) : RunStatus × ExecState :=
  runLoop tasks agentF strat tasks.length ⟨seedOf prior fromId, []⟩

/-- The cross-task ordering guarantee over a trace: every dispatch of a task
is preceded, within the trace, by a completion of each of its declared
dependencies (or the dependency was part of the seeded base). -/
def GateProp (tasks : List TaskDef) (base : List String) (tr : List Event) : Prop :=
  ∀ pre n ctx post, tr = pre ++ Event.dispatch n ctx :: post →
    ∀ t, t ∈ tasks → t.name = n →
      ∀ d ∈ t.deps, d ∈ base ∨ ∃ r, Event.complete d r ∈ pre

/-- Every completion in a trace is preceded by a dispatch of the same task. -/
def CadProp (tr : List Event) : Prop :=
  ∀ pre n r post, tr = pre ++ Event.complete n r :: post →
    ∃ ctx, Event.dispatch n ctx ∈ pre

/-- Invariant of the coordinator loop: the record log extends the seed, task
identities are done exactly when seeded or completed in the trace, every
dispatch respects the dependency gate and no seeded task is ever dispatched,
every completion follows its dispatch, and every dispatched context carries
the seeded record of each seeded dependency. -/
structure LoopInv (tasks : List TaskDef) (seed : List (String × String))
    (st : ExecState) : Prop where
  records_ext : ∃ ext, st.records = seed ++ ext
  mem_done : ∀ x, x ∈ doneNames st ↔ x ∈ seed.map Prod.fst ∨ x ∈ completesOf st.trace
  gate : GateProp tasks (seed.map Prod.fst) st.trace
  cad : CadProp st.trace
  disp_not_seed : ∀ n ctx, Event.dispatch n ctx ∈ st.trace → ¬ n ∈ seed.map Prod.fst
  ctx_seeded : ∀ n ctx, Event.dispatch n ctx ∈ st.trace →
    ∀ t, t ∈ tasks → t.name = n →
      ∀ d v, (d, v) ∈ seed → d ∈ t.deps → (d, v) ∈ ctx

/-- Properties of a finished coordinator run: the loop invariant still holds
and the final status surfaces exactly the failure recorded in the trace, a
task that failed never completed, and its recorded failure cause is the
result of its agent invocation on the dispatched context. -/
structure RunOutcome (tasks : List TaskDef) (agentF : AgentF)
    (seed : List (String × String)) (res : RunStatus × ExecState) : Prop where
  inv : LoopInv tasks seed res.2
  fail_status : ∀ n e, Event.failure n e ∈ res.2.trace → res.1 = RunStatus.failed n e
  status_fail : ∀ n e, res.1 = RunStatus.failed n e →
    Event.failure n e ∈ res.2.trace ∧
    (∀ r, ¬ Event.complete n r ∈ res.2.trace) ∧
    ∃ ctx, Event.dispatch n ctx ∈ res.2.trace ∧ agentF n ctx = Except.error e


/-- Durable storage: a set of directories and an overwrite file store, both
keyed by segment paths. -/
structure FileSys where
  dirs : List (List String)
  files : List (List String × String)
deriving DecidableEq

/-- Overwrite-write of a file entry, replacing an existing entry in place. -/
def setFile : List (List String × String) → List String → String → List (List String × String)
  | [], p, c => [(p, c)]
  | q :: rest, p, c => if q.1 = p then (p, c) :: rest else q :: setFile rest p c

/-- Create one directory if absent (`exist_ok=True`). -/
def addDir (dirs : List (List String)) (d : List String) : List (List String) :=
  if d ∈ dirs then dirs else dirs ++ [d]

/-- All nonempty prefixes of a path, shortest first. -/
def pathChain (p : List String) : List (List String) :=
  (List.range p.length).map fun k => p.take (k + 1)

/-- Create a directory together with all its ancestors (`parents=True`). -/
def mkdirAll (dirs : List (List String)) (p : List String) : List (List String) :=
  (pathChain p).foldl addDir dirs

/-- Modelled from the spec: the Artifact Writer `write(path, content)`
(crewai persists `output_file` targets; the writer is not part of this
repository).  Creates any missing parent directories of `path`, then
overwrite-writes `content` at `path`. -/
def writeArtifact (fs : FileSys) (p : List String) (c : String) : FileSys :=
  { dirs := mkdirAll fs.dirs p.dropLast
    files := setFile fs.files p c }

/-- The 19 output directories of `setup_project_environment` in `main.py`,
in the order they are created. -/
def outputDirs : List String :=
  ["output",
   "output/documentation",
   "output/source",
   "output/source/shared/src/main/java/com/messenger/shared",
   "output/source/shared/src/test/java/com/messenger/shared",
   "output/source/server/src/main/java/com/messenger/server",
   "output/source/server/src/main/resources",
   "output/source/server/src/test/java/com/messenger/server",
   "output/source/client/src/main/java/com/messenger/client",
   "output/source/client/src/main/resources",
   "output/source/client/src/test/java/com/messenger/client",
   "output/database/migrations",
   "output/database/seed",
   "output/deployment/docker",
   "output/deployment/kubernetes",
   "output/deployment/scripts",
   "output/testing/unit",
   "output/testing/integration",
   "output/testing/e2e"]

/-- Split a character list at every slash, like `splitOn "/"`. -/
def splitSegs : List Char → List (List Char)
  | [] => [[]]
  | c :: rest =>
    if c = '/' then [] :: splitSegs rest
    else
      match splitSegs rest with
      | [] => [[c]]
      | seg :: segs => (c :: seg) :: segs

/-- Split a path string into segments at slashes. -/
def splitPath (s : String) : List String :=
  (splitSegs s.data).map String.mk

/-- `required_env` in `main.py`. -/
def requiredEnvVars : List String := ["GEMINI_API_KEY"]

/-- `not os.getenv(var)`: the variable is unset or holds the empty string. -/
def envFalsy (env : List (String × String)) (v : String) : Bool :=
  match lookupR v env with
  | none => true
  | some s => s == ""

/-- `setup_project_environment` from `main.py`: first creates every output
directory with `Path(dir_path).mkdir(parents=True, exist_ok=True)`, then
checks the required environment variables and returns `False` when one is
missing, without rolling the directories back. -/
def setup_project_environment (env : List (String × String)) (fs : FileSys) :
    Bool × FileSys :=
  let fs1 : FileSys :=
    { fs with dirs := outputDirs.foldl (fun ds p => mkdirAll ds (splitPath p)) fs.dirs }
  if requiredEnvVars.filter (envFalsy env) = [] then (true, fs1) else (false, fs1)

/-- The module-level entry operations `main.py` exposes to its caller (the
crewai CLI command surface): `run`, `train`, `replay` and `test`. -/
def mainEntryOperations : List String := ["run", "train", "replay", "test"]


theorem memB_iff (x : String) (l : List String) : memB x l = true ↔ x ∈ l := by
  simp [memB, List.any_eq_true, beq_iff_eq]

theorem memB_eq_false {x : String} {l : List String} : memB x l = false ↔ ¬ x ∈ l := by
  rw [← memB_iff]
  cases memB x l <;> simp

theorem memB_append (x : String) (l1 l2 : List String) :
    memB x (l1 ++ l2) = (memB x l1 || memB x l2) := by
  simp [memB, List.any_append]

theorem knownName_iff (tasks : List TaskDef) (d : String) :
    knownName tasks d = true ↔ ∃ u, u ∈ tasks ∧ u.name = d := by
  simp [knownName, List.any_eq_true, beq_iff_eq]

theorem mem_pendingTasks {tasks : List TaskDef} {done : List String} {t : TaskDef} :
    t ∈ pendingTasks tasks done ↔ t ∈ tasks ∧ ¬ t.name ∈ done := by
  unfold pendingTasks
  rw [List.mem_filter]
  simp [memB_eq_false]

theorem selfReach_step {tasks : List TaskDef} {x : String} (h : SelfReach tasks x) :
    ∃ y, depEdge tasks x y ∧ SelfReach tasks y := by
  rcases Relation.TransGen.head'_iff.mp h with ⟨b, hxb, hbx⟩
  exact ⟨b, hxb, Relation.TransGen.tail' hbx hxb⟩

theorem name_inj {tasks : List TaskDef} (hN : NamesNodup tasks) {t u : TaskDef}
    (ht : t ∈ tasks) (hu : u ∈ tasks) (h : t.name = u.name) : t = u :=
  List.inj_on_of_nodup_map hN ht hu h

theorem exists_ready_of_acyclic {tasks : List TaskDef} {done : List String}
    (hA : Acyclic tasks) (hK : DepsKnown tasks)
    (hne : pendingTasks tasks done ≠ []) :
    ∃ t, t ∈ pendingTasks tasks done ∧ isReady done t = true := by
  by_contra hco
  push_neg at hco
  set R := (pendingTasks tasks done).map TaskDef.name with hR
  have hstep : ∀ x : String, ∃ y, x ∈ R → y ∈ R ∧ depEdge tasks x y := by
    intro x
    by_cases hx : x ∈ R
    · rcases List.mem_map.mp hx with ⟨t, htp, rfl⟩
      have htt : t ∈ tasks := (mem_pendingTasks.mp htp).1
      have hnr := hco t htp
      have hbad : ∃ d, d ∈ t.deps ∧ ¬ d ∈ done := by
        by_contra hall
        push_neg at hall
        apply hnr
        unfold isReady
        rw [List.all_eq_true]
        intro d hd
        exact (memB_iff d done).mpr (hall d hd)
      rcases hbad with ⟨d, hd, hdnd⟩
      rcases hK t htt d hd with ⟨u, hu, hud⟩
      have hup : u ∈ pendingTasks tasks done := mem_pendingTasks.mpr ⟨hu, by rwa [hud]⟩
      exact ⟨d, fun _ => ⟨List.mem_map.mpr ⟨u, hup, hud⟩, ⟨t, htt, rfl, hd⟩⟩⟩
    · exact ⟨x, fun h => absurd h hx⟩
  choose g hg using hstep
  have hit : ∀ k x, x ∈ R → g^[k] x ∈ R := by
    intro k
    induction k with
    | zero => intro x hx; simpa using hx
    | succ k ih =>
      intro x hx
      rw [Function.iterate_succ_apply]
      exact ih (g x) (hg x hx).1
  have htg : ∀ x, x ∈ R → ∀ k, 0 < k → Relation.TransGen (depEdge tasks) x (g^[k] x) := by
    intro x hx k
    induction k with
    | zero => omega
    | succ k ih =>
      intro _
      rcases Nat.eq_zero_or_pos k with hk0 | hkpos
      · subst hk0
        simpa using Relation.TransGen.single (hg x hx).2
      · have h1 := ih hkpos
        have h2 : depEdge tasks (g^[k] x) (g^[k + 1] x) := by
          rw [Function.iterate_succ_apply']
          exact (hg _ (hit k x hx)).2
        exact h1.tail h2
  obtain ⟨t0, ht0⟩ := List.exists_mem_of_ne_nil _ hne
  have hx0 : t0.name ∈ R := List.mem_map.mpr ⟨t0, ht0, rfl⟩
  have hcard : R.toFinset.card ≤ R.length := List.toFinset_card_le R
  have hmaps : ∀ i ∈ Finset.range (R.length + 1), g^[i] t0.name ∈ R.toFinset := by
    intro i _
    exact List.mem_toFinset.mpr (hit i _ hx0)
  obtain ⟨i, hi, j, hj, hij, heq⟩ :=
    Finset.exists_ne_map_eq_of_card_lt_of_maps_to
      (by rw [Finset.card_range]; omega) hmaps
  have key : ∀ a b : ℕ, a < b → g^[a] t0.name = g^[b] t0.name → False := by
    intro a b hlt heqab
    have hyR : g^[a] t0.name ∈ R := hit a _ hx0
    have htr : Relation.TransGen (depEdge tasks) (g^[a] t0.name) (g^[b - a] (g^[a] t0.name)) :=
      htg _ hyR (b - a) (by omega)
    rw [← Function.iterate_add_apply] at htr
    have hba : b - a + a = b := by omega
    rw [hba, ← heqab] at htr
    exact hA _ htr
  rcases hij.lt_or_lt with hlt | hlt
  · exact key i j hlt heq
  · exact key j i hlt heq.symm

theorem pendingTasks_sublist (tasks : List TaskDef) (done : List String) (x : String) :
    List.Sublist (pendingTasks tasks (done ++ [x])) (pendingTasks tasks done) := by
  apply List.monotone_filter_right
  intro t h
  rw [Bool.not_eq_true'] at h ⊢
  rw [memB_append] at h
  exact (Bool.or_eq_false_iff.mp h).1

theorem pendingTasks_length_lt {tasks : List TaskDef} {done : List String} {u : TaskDef}
    (hup : u ∈ pendingTasks tasks done) :
    (pendingTasks tasks (done ++ [u.name])).length < (pendingTasks tasks done).length := by
  have hsub := pendingTasks_sublist tasks done u.name
  refine lt_of_le_of_ne hsub.length_le (fun hEq => ?_)
  have hEq2 : pendingTasks tasks (done ++ [u.name]) = pendingTasks tasks done :=
    hsub.eq_of_length hEq
  have : u ∈ pendingTasks tasks (done ++ [u.name]) := hEq2 ▸ hup
  exact (mem_pendingTasks.mp this).2 (by simp)

theorem kahnAux_sound {tasks : List TaskDef} (hN : NamesNodup tasks)
    (hK : DepsKnown tasks) (hA : Acyclic tasks) :
    ∀ fuel done,
      (pendingTasks tasks done).length ≤ fuel →
      (∀ t ∈ tasks, t.name ∈ done → ∀ d ∈ t.deps, List.Sublist [d, t.name] done) →
      ∃ order, kahnAux tasks fuel done = .ok order ∧ IsTopo tasks order := by
  intro fuel
  induction fuel with
  | zero =>
    intro done hlen hinv
    have hpe : pendingTasks tasks done = [] := List.length_eq_zero.mp (Nat.le_zero.mp hlen)
    refine ⟨done, by unfold kahnAux; rw [if_pos hpe], ?_⟩
    intro t ht
    have hmem : t.name ∈ done := by
      by_contra hnd
      have hm : t ∈ pendingTasks tasks done := mem_pendingTasks.mpr ⟨ht, hnd⟩
      rw [hpe] at hm
      exact absurd hm (List.not_mem_nil t)
    exact ⟨hmem, hinv t ht hmem⟩
  | succ fuel ih =>
    intro done hlen hinv
    by_cases hpe : pendingTasks tasks done = []
    · refine ⟨done, by unfold kahnAux; rw [if_pos hpe], ?_⟩
      intro t ht
      have hmem : t.name ∈ done := by
        by_contra hnd
        have hm : t ∈ pendingTasks tasks done := mem_pendingTasks.mpr ⟨ht, hnd⟩
        rw [hpe] at hm
        exact absurd hm (List.not_mem_nil t)
      exact ⟨hmem, hinv t ht hmem⟩
    · obtain ⟨c, hcp, hcr⟩ := exists_ready_of_acyclic hA hK hpe
      have hfs : ((pendingTasks tasks done).find? (isReady done)).isSome := by
        rw [List.find?_isSome]
        exact ⟨c, hcp, hcr⟩
      obtain ⟨u, hu⟩ := Option.isSome_iff_exists.mp hfs
      have hup : u ∈ pendingTasks tasks done := List.mem_of_find?_eq_some hu
      have hur : isReady done u = true := List.find?_some hu
      have hstep : kahnAux tasks (fuel + 1) done = kahnAux tasks fuel (done ++ [u.name]) := by
        conv_lhs => unfold kahnAux
        rw [if_neg hpe, hu]
      have hlen2 : (pendingTasks tasks (done ++ [u.name])).length ≤ fuel := by
        have := pendingTasks_length_lt hup
        omega
      have hinv2 : ∀ t ∈ tasks, t.name ∈ done ++ [u.name] →
          ∀ d ∈ t.deps, List.Sublist [d, t.name] (done ++ [u.name]) := by
        intro t ht htm d hd
        rcases List.mem_append.mp htm with hmo | hmn
        · exact (hinv t ht hmo d hd).trans (List.sublist_append_left done [u.name])
        · have heqn : t.name = u.name := List.mem_singleton.mp hmn
          have heqt : t = u := name_inj hN ht (mem_pendingTasks.mp hup).1 heqn
          subst heqt
          have hdm : d ∈ done := by
            have hall : t.deps.all (fun d => memB d done) = true := hur
            exact (memB_iff d done).mp ((List.all_eq_true.mp hall) d hd)
          have h1 : List.Sublist [d] done := List.singleton_sublist.mpr hdm
          simpa using List.Sublist.append h1 (List.Sublist.refl [t.name])
      rw [hstep]
      exact ih (done ++ [u.name]) hlen2 hinv2

theorem pending_of_selfReach {tasks : List TaskDef} {x : String}
    (hx : SelfReach tasks x) {done : List String}
    (hdone : ∀ y, SelfReach tasks y → ¬ y ∈ done) :
    pendingTasks tasks done ≠ [] := by
  rcases selfReach_step hx with ⟨y, ⟨t, ht, htn, _⟩, _⟩
  have hxd : ¬ x ∈ done := hdone x hx
  have hm : t ∈ pendingTasks tasks done := mem_pendingTasks.mpr ⟨ht, by rwa [htn]⟩
  intro hpe
  rw [hpe] at hm
  exact absurd hm (List.not_mem_nil t)

theorem kahnAux_stuck {tasks : List TaskDef} (hN : NamesNodup tasks)
    {x : String} (hx : SelfReach tasks x) :
    ∀ fuel done, (∀ y, SelfReach tasks y → ¬ y ∈ done) →
      kahnAux tasks fuel done = .error .CycleDetected := by
  intro fuel
  induction fuel with
  | zero =>
    intro done hdone
    have hpe := pending_of_selfReach hx hdone
    unfold kahnAux
    rw [if_neg hpe]
  | succ fuel ih =>
    intro done hdone
    have hpe := pending_of_selfReach hx hdone
    unfold kahnAux
    rw [if_neg hpe]
    cases hfind : (pendingTasks tasks done).find? (isReady done) with
    | none => rfl
    | some c =>
      have hcp := List.mem_of_find?_eq_some hfind
      have hcr : isReady done c = true := List.find?_some hfind
      have hcs : ¬ SelfReach tasks c.name := by
        intro hsr
        rcases selfReach_step hsr with ⟨y, ⟨u, hu, hun, hyd⟩, hysr⟩
        have heqt : u = c := name_inj hN hu (mem_pendingTasks.mp hcp).1 hun
        subst heqt
        have hyd2 : y ∈ done := by
          have hall : u.deps.all (fun d => memB d done) = true := hcr
          exact (memB_iff y done).mp ((List.all_eq_true.mp hall) y hyd)
        exact hdone y hysr hyd2
      apply ih (done ++ [c.name])
      intro y hy hmem
      rcases List.mem_append.mp hmem with h1 | h2
      · exact hdone y hy h1
      · have heqn : y = c.name := List.mem_singleton.mp h2
        subst heqn
        exact hcs hy

theorem firstUnknown_eq_none {tasks : List TaskDef} (hK : DepsKnown tasks) :
    firstUnknown tasks = none := by
  unfold firstUnknown
  rw [List.findSome?_eq_none_iff]
  intro t ht
  rw [Option.map_eq_none']
  rw [List.find?_eq_none]
  intro d hd
  rw [Bool.not_eq_true, Bool.not_eq_false']
  exact (knownName_iff tasks d).mpr (hK t ht d hd)

theorem hasRank_acyclic {tasks : List TaskDef} {r : String → Nat}
    (hr : HasRank tasks r) : Acyclic tasks := by
  have hlt : ∀ a b, Relation.TransGen (depEdge tasks) a b → r b < r a := by
    intro a b h
    induction h with
    | single hab =>
      rcases hab with ⟨t, ht, htn, hbd⟩
      subst htn
      exact hr t ht _ hbd
    | tail hab hbc ih =>
      rcases hbc with ⟨t, ht, htn, hcd⟩
      have h2 := hr t ht _ hcd
      rw [htn] at h2
      omega
  intro x hx
  exact absurd (hlt x x hx) (lt_irrefl _)

theorem buildOrder_acyclic {tasks : List TaskDef} (hN : NamesNodup tasks)
    (hK : DepsKnown tasks) (hA : Acyclic tasks) :
    ∃ order, buildOrder tasks = .ok order ∧ IsTopo tasks order := by
  have h0 := kahnAux_sound hN hK hA tasks.length []
    (List.length_filter_le _ _)
    (by intro t ht h; exact absurd h (List.not_mem_nil _))
  rcases h0 with ⟨order, hk, ht⟩
  refine ⟨order, ?_, ht⟩
  unfold buildOrder
  rw [firstUnknown_eq_none hK]
  exact hk

theorem buildOrder_cycleDetected {tasks : List TaskDef} (hN : NamesNodup tasks)
    (hK : DepsKnown tasks) {x : String} (hx : SelfReach tasks x) :
    buildOrder tasks = .error .CycleDetected := by
  unfold buildOrder
  rw [firstUnknown_eq_none hK]
  exact kahnAux_stuck hN hx tasks.length []
    (by intro y _ h; exact absurd h (List.not_mem_nil _))

/-- C1: for every well-formed acyclic task set the Dependency Graph Builder
returns a topological order placing every task after all of its declared
dependencies, and for any task set containing a dependency cycle it fails
with `CycleDetected`; the eleven concrete crew tasks are acyclic and the
static task list handed to the Crew is itself such a topological order. -/
theorem C1_dependency_graph_builder :
    (∀ tasks, NamesNodup tasks → DepsKnown tasks → Acyclic tasks →
      ∃ order, buildOrder tasks = .ok order ∧ IsTopo tasks order) ∧
    (∀ tasks x, NamesNodup tasks → DepsKnown tasks → SelfReach tasks x →
      buildOrder tasks = .error .CycleDetected) ∧
    crewTasks.length = 11 ∧
    Acyclic crewTasks ∧
    IsTopo crewTasks staticOrderNames := by
  refine ⟨fun tasks hN hK hA => buildOrder_acyclic hN hK hA,
          fun tasks x hN hK hx => buildOrder_cycleDetected hN hK hx,
          by decide,
          hasRank_acyclic (r := crewRank) ?_, ?_⟩
  · unfold HasRank; decide
  · unfold IsTopo; decide

/-- Witness for C1: the general theorem applied to the concrete crew task
set, and to a concrete two-task cycle. -/
theorem C1_dependency_graph_builder_witness :
    (∃ order, buildOrder crewTasks = .ok order ∧ IsTopo crewTasks order) ∧
    buildOrder [⟨"a", ["b"], "w", none⟩, ⟨"b", ["a"], "w", none⟩] =
      .error .CycleDetected := by
  constructor
  · exact C1_dependency_graph_builder.1 crewTasks (by unfold NamesNodup; decide)
      (by unfold DepsKnown; decide) C1_dependency_graph_builder.2.2.2.1
  · refine C1_dependency_graph_builder.2.1 _ "a" (by unfold NamesNodup; decide)
      (by unfold DepsKnown; decide) ?_
    refine Relation.TransGen.tail (b := "b") (Relation.TransGen.single ?_) ?_
    · exact ⟨⟨"a", ["b"], "w", none⟩, by simp, rfl, by simp⟩
    · exact ⟨⟨"b", ["a"], "w", none⟩, by simp, rfl, by simp⟩

theorem firstReady_of_pending_nil {tasks : List TaskDef} {done : List String}
    (h : pendingTasks tasks done = []) : firstReady tasks done = none := by
  unfold firstReady
  rw [h]
  rfl

theorem greedy_unique {tasks : List TaskDef} {o1 o2 : List String}
    (h1 : IsGreedy tasks o1) (h2 : IsGreedy tasks o2) : o1 = o2 := by
  obtain ⟨hp1, hg1⟩ := h1
  obtain ⟨hp2, hg2⟩ := h2
  have htake : ∀ n, n ≤ o1.length → n ≤ o2.length → o1.take n = o2.take n := by
    intro n
    induction n with
    | zero => intro _ _; rfl
    | succ n ih =>
      intro hn1 hn2
      have ht := ih (by omega) (by omega)
      have e1 := hg1 n (by omega)
      have e2 := hg2 n (by omega)
      rw [← ht] at e2
      rw [e1] at e2
      have hgeq : o1.get ⟨n, by omega⟩ = o2.get ⟨n, by omega⟩ := Option.some.inj e2
      rw [List.get_eq_getElem, List.get_eq_getElem] at hgeq
      rw [← List.take_concat_get o1 n (by omega), ← List.take_concat_get o2 n (by omega),
        ht, hgeq]
  have hlen : o1.length = o2.length := by
    by_contra hne
    rcases Nat.lt_or_ge o1.length o2.length with hlt | hge
    · have e2 := hg2 o1.length hlt
      have ht := htake o1.length (le_refl _) (by omega)
      rw [← ht, List.take_length] at e2
      rw [firstReady_of_pending_nil hp1] at e2
      exact Option.noConfusion e2
    · have hlt2 : o2.length < o1.length := by omega
      have e1 := hg1 o2.length hlt2
      have ht := htake o2.length (by omega) (le_refl _)
      rw [ht, List.take_length] at e1
      rw [firstReady_of_pending_nil hp2] at e1
      exact Option.noConfusion e1
  have hfin := htake o1.length (le_refl _) (by omega)
  rwa [List.take_length, hlen, List.take_length] at hfin

theorem kahnAux_greedy {tasks : List TaskDef} :
    ∀ fuel done order, kahnAux tasks fuel done = .ok order →
      pendingTasks tasks order = [] ∧
      ∃ ext, order = done ++ ext ∧
        ∀ k (hk : k < ext.length),
          (firstReady tasks (done ++ ext.take k)).map TaskDef.name =
            some (ext.get ⟨k, hk⟩) := by
  intro fuel
  induction fuel with
  | zero =>
    intro done order h
    unfold kahnAux at h
    by_cases hpe : pendingTasks tasks done = []
    · rw [if_pos hpe] at h
      obtain rfl : done = order := Except.ok.inj h
      exact ⟨hpe, [], by simp, by intro k hk; simp at hk⟩
    · rw [if_neg hpe] at h
      exact Except.noConfusion h
  | succ fuel ih =>
    intro done order h
    unfold kahnAux at h
    by_cases hpe : pendingTasks tasks done = []
    · rw [if_pos hpe] at h
      obtain rfl : done = order := Except.ok.inj h
      exact ⟨hpe, [], by simp, by intro k hk; simp at hk⟩
    · rw [if_neg hpe] at h
      cases hfind : (pendingTasks tasks done).find? (isReady done) with
      | none => rw [hfind] at h; exact Except.noConfusion h
      | some c =>
        rw [hfind] at h
        obtain ⟨hpo, ext2, hext, hcond⟩ := ih (done ++ [c.name]) order h
        subst hext
        refine ⟨hpo, c.name :: ext2, by simp, ?_⟩
        intro k hk
        cases k with
        | zero =>
          simp only [List.take_zero, List.append_nil]
          have hfr : firstReady tasks done = some c := hfind
          rw [hfr]
          rfl
        | succ k2 =>
          have hk2 : k2 < ext2.length := by simpa using hk
          have hc := hcond k2 hk2
          have heq : done ++ (c.name :: ext2).take (k2 + 1) =
              (done ++ [c.name]) ++ ext2.take k2 := by
            simp [List.take_succ_cons]
          rw [heq]
          exact hc

theorem buildOrder_greedy {tasks : List TaskDef} {order : List String}
    (h : buildOrder tasks = .ok order) : IsGreedy tasks order := by
  unfold buildOrder at h
  cases hfu : firstUnknown tasks with
  | some td => rw [hfu] at h; exact Except.noConfusion h
  | none =>
    rw [hfu] at h
    obtain ⟨hp, ext, hext, hcond⟩ := kahnAux_greedy tasks.length [] order h
    rw [List.nil_append] at hext
    subst hext
    refine ⟨hp, ?_⟩
    intro k hk
    have hc := hcond k hk
    simpa using hc

/-- C8: the Dependency Graph Builder is a pure function of the task
definitions, its successful ordering is exactly the greedy schedule whose
ties are broken by declaration order in the store, and that schedule is
unique, so any two runs over identical input task definitions obtain the
identical execution ordering. -/
theorem C8_deterministic_ordering :
    ∀ tasks order, buildOrder tasks = .ok order →
      IsGreedy tasks order ∧ ∀ order2, IsGreedy tasks order2 → order2 = order := by
  intro tasks order h
  have hg := buildOrder_greedy h
  exact ⟨hg, fun o2 h2 => greedy_unique h2 hg⟩

/-- Witness for C8: the concrete crew task set, whose unique greedy ordering
is the static declaration order. -/
theorem C8_deterministic_ordering_witness :
    IsGreedy crewTasks staticOrderNames ∧
      ∀ order2, IsGreedy crewTasks order2 → order2 = staticOrderNames :=
  C8_deterministic_ordering crewTasks staticOrderNames (by rfl)

theorem snoc_decomp {α : Type} {l : List α} {e : α} {pre post : List α} {a : α}
    (h : l ++ [e] = pre ++ a :: post) :
    (∃ post2, l = pre ++ a :: post2 ∧ post = post2 ++ [e]) ∨
      (pre = l ∧ a = e ∧ post = []) := by
  rcases List.append_eq_append_iff.mp h with ⟨a2, h1, h2⟩ | ⟨c2, h1, h2⟩
  · cases a2 with
    | nil =>
      right
      rw [List.append_nil] at h1
      have h3 : a = e ∧ post = [] := by
        have h4 := h2.symm
        simp at h4
        exact ⟨h4.1, h4.2⟩
      exact ⟨h1, h3.1, h3.2⟩
    | cons x xs =>
      exfalso
      have hlen := congrArg List.length h2
      simp [List.length_cons] at hlen
  · cases c2 with
    | nil =>
      right
      rw [List.append_nil] at h1
      have h3 : a = e ∧ post = [] := by
        simp at h2
        exact ⟨h2.1, h2.2⟩
      exact ⟨h1.symm, h3.1, h3.2⟩
    | cons y ys =>
      left
      have h2b : a = y ∧ post = ys ++ [e] := by
        rw [List.cons_append] at h2
        exact ⟨(List.cons.inj h2).1, (List.cons.inj h2).2⟩
      obtain ⟨rfl, hpost⟩ := h2b
      exact ⟨ys, by rw [h1], hpost⟩

theorem completesOf_append (l1 l2 : List Event) :
    completesOf (l1 ++ l2) = completesOf l1 ++ completesOf l2 := by
  simp [completesOf, List.filterMap_append]

theorem mem_completesOf {l : List Event} {n : String} :
    n ∈ completesOf l ↔ ∃ r, Event.complete n r ∈ l := by
  rw [completesOf, List.mem_filterMap]
  constructor
  · rintro ⟨e, he, hme⟩
    cases e with
    | dispatch m c => exact Option.noConfusion hme
    | complete m r => exact ⟨r, by rw [← Option.some.inj hme]; exact he⟩
    | failure m r => exact Option.noConfusion hme
  · rintro ⟨r, hr⟩
    exact ⟨Event.complete n r, hr, rfl⟩

theorem gateProp_nil (tasks : List TaskDef) (base : List String) :
    GateProp tasks base [] := by
  intro pre n ctx post h
  exact absurd h.symm (List.append_ne_nil_of_right_ne_nil pre (by simp))

theorem cadProp_nil : CadProp [] := by
  intro pre n r post h
  exact absurd h.symm (List.append_ne_nil_of_right_ne_nil pre (by simp))

theorem gateProp_snoc_dispatch {tasks : List TaskDef} {base : List String}
    {tr : List Event} {n : String} {ctx : List (String × String)}
    (hg : GateProp tasks base tr)
    (hnew : ∀ t, t ∈ tasks → t.name = n →
      ∀ d ∈ t.deps, d ∈ base ∨ ∃ r, Event.complete d r ∈ tr) :
    GateProp tasks base (tr ++ [Event.dispatch n ctx]) := by
  intro pre m c post h
  rcases snoc_decomp h with ⟨post2, hl, _⟩ | ⟨hpre, hev, _⟩
  · exact hg pre m c post2 hl
  · obtain ⟨rfl, rfl⟩ := Event.dispatch.inj hev
    rw [hpre]
    exact hnew

theorem gateProp_snoc_other {tasks : List TaskDef} {base : List String}
    {tr : List Event} {e : Event}
    (hg : GateProp tasks base tr)
    (he : ∀ m c, ¬ e = Event.dispatch m c) :
    GateProp tasks base (tr ++ [e]) := by
  intro pre m c post h
  rcases snoc_decomp h with ⟨post2, hl, _⟩ | ⟨_, hev, _⟩
  · exact hg pre m c post2 hl
  · exact absurd hev.symm (he m c)

theorem cadProp_snoc_complete {tr : List Event} {n r : String}
    (hc : CadProp tr) (hd : ∃ ctx, Event.dispatch n ctx ∈ tr) :
    CadProp (tr ++ [Event.complete n r]) := by
  intro pre m r2 post h
  rcases snoc_decomp h with ⟨post2, hl, _⟩ | ⟨hpre, hev, _⟩
  · exact hc pre m r2 post2 hl
  · obtain ⟨rfl, rfl⟩ := Event.complete.inj hev
    rw [hpre]
    exact hd

theorem cadProp_snoc_other {tr : List Event} {e : Event}
    (hc : CadProp tr) (he : ∀ m r, ¬ e = Event.complete m r) :
    CadProp (tr ++ [e]) := by
  intro pre m r2 post h
  rcases snoc_decomp h with ⟨post2, hl, _⟩ | ⟨_, hev, _⟩
  · exact hc pre m r2 post2 hl
  · exact absurd hev.symm (he m r2)

theorem gatedChoice_mem {strat : Strategy} {ready : List TaskDef} {t : TaskDef}
    (h : gatedChoice strat ready = some t) : t ∈ ready := by
  unfold gatedChoice at h
  split at h
  · exact Option.noConfusion h
  · split at h
    · obtain rfl := Option.some.inj h
      exact List.mem_cons_self _ _
    · split at h
      · rename_i hf
        obtain rfl := Option.some.inj h
        exact List.mem_of_find?_eq_some hf
      · obtain rfl := Option.some.inj h
        exact List.mem_cons_self _ _

theorem mem_readyList {tasks : List TaskDef} {st : ExecState} {t : TaskDef}
    (h : t ∈ readyList tasks st) :
    t ∈ tasks ∧ ¬ t.name ∈ doneNames st ∧ isReady (doneNames st) t = true := by
  unfold readyList at h
  rw [List.mem_filter] at h
  exact ⟨(mem_pendingTasks.mp h.1).1, (mem_pendingTasks.mp h.1).2, h.2⟩

theorem lookupR_isSome_of_mem_keys {d : String} {recs : List (String × String)}
    (h : d ∈ recs.map Prod.fst) : ∃ v, lookupR d recs = some v := by
  induction recs with
  | nil => simp at h
  | cons p rest ih =>
    by_cases hd : p.1 = d
    · exact ⟨p.2, by unfold lookupR; rw [if_pos (beq_iff_eq.mpr hd)]⟩
    · rw [List.map_cons, List.mem_cons] at h
      rcases h with h1 | h2
      · exact absurd h1.symm hd
      · obtain ⟨v, hv⟩ := ih h2
        refine ⟨v, ?_⟩
        unfold lookupR
        rw [if_neg (by simp [hd])]
        exact hv

theorem lookupR_append_of_mem {d : String} {l1 l2 : List (String × String)}
    (h : d ∈ l1.map Prod.fst) : lookupR d (l1 ++ l2) = lookupR d l1 := by
  induction l1 with
  | nil => simp at h
  | cons p rest ih =>
    rw [List.cons_append]
    unfold lookupR
    by_cases hd : p.1 = d
    · rw [if_pos (beq_iff_eq.mpr hd), if_pos (beq_iff_eq.mpr hd)]
    · rw [if_neg (by simp [hd]), if_neg (by simp [hd])]
      rw [List.map_cons, List.mem_cons] at h
      rcases h with h1 | h2
      · exact absurd h1.symm hd
      · exact ih h2

theorem lookupR_eq_some_of_mem {d v : String} {recs : List (String × String)}
    (hn : (recs.map Prod.fst).Nodup) (h : (d, v) ∈ recs) :
    lookupR d recs = some v := by
  induction recs with
  | nil => simp at h
  | cons p rest ih =>
    rw [List.map_cons, List.nodup_cons] at hn
    unfold lookupR
    rcases List.mem_cons.mp h with h1 | h2
    · rw [← h1]
      rw [if_pos (beq_iff_eq.mpr rfl)]
    · have hne : p.1 ≠ d := by
        intro hcontra
        apply hn.1
        rw [hcontra]
        exact List.mem_map.mpr ⟨(d, v), h2, rfl⟩
      rw [if_neg (by simp [hne])]
      exact ih hn.2 h2

theorem aggregate_isSome {deps : List String} {recs : List (String × String)}
    (h : ∀ d ∈ deps, ∃ v, lookupR d recs = some v) :
    ∃ ctx, aggregate deps recs = some ctx := by
  induction deps with
  | nil => exact ⟨[], rfl⟩
  | cons d rest ih =>
    obtain ⟨v, hv⟩ := h d (List.mem_cons_self _ _)
    obtain ⟨l, hl⟩ := ih (fun d2 hd2 => h d2 (List.mem_cons_of_mem _ hd2))
    refine ⟨(d, v) :: l, ?_⟩
    unfold aggregate
    rw [hv, hl]

theorem aggregate_fst {deps : List String} {recs : List (String × String)} :
    ∀ {ctx}, aggregate deps recs = some ctx → ctx.map Prod.fst = deps := by
  induction deps with
  | nil =>
    intro ctx h
    obtain rfl := Option.some.inj h
    rfl
  | cons d rest ih =>
    intro ctx h
    unfold aggregate at h
    cases h0 : lookupR d recs with
    | none => rw [h0] at h; exact Option.noConfusion h
    | some v =>
      rw [h0] at h
      cases h1 : aggregate rest recs with
      | none => rw [h1] at h; exact Option.noConfusion h
      | some l =>
        rw [h1] at h
        obtain rfl := Option.some.inj h
        rw [List.map_cons, ih h1]

theorem aggregate_mem_of_lookup {deps : List String} {recs : List (String × String)} :
    ∀ {ctx}, aggregate deps recs = some ctx →
      ∀ d, d ∈ deps → ∀ v, lookupR d recs = some v → (d, v) ∈ ctx := by
  induction deps with
  | nil => intro ctx _ d hd; exact absurd hd (List.not_mem_nil d)
  | cons d0 rest ih =>
    intro ctx h d hd v hv
    unfold aggregate at h
    cases h0 : lookupR d0 recs with
    | none => rw [h0] at h; exact Option.noConfusion h
    | some v0 =>
      rw [h0] at h
      cases h1 : aggregate rest recs with
      | none => rw [h1] at h; exact Option.noConfusion h
      | some l =>
        rw [h1] at h
        obtain rfl := Option.some.inj h
        rcases List.mem_cons.mp hd with rfl | hdr
        · rw [h0] at hv
          obtain rfl := Option.some.inj hv
          exact List.mem_cons_self _ _
        · exact List.mem_cons_of_mem _ (ih h1 d hdr v hv)

theorem aggregate_congr {deps : List String} {recs recs2 : List (String × String)}
    (h : ∀ d, lookupR d recs = lookupR d recs2) :
    aggregate deps recs = aggregate deps recs2 := by
  induction deps with
  | nil => rfl
  | cons d rest ih =>
    unfold aggregate
    rw [h d, ih]

theorem runLoop_master (tasks : List TaskDef) (agentF : AgentF) (strat : Strategy)
    (seed : List (String × String)) (hN : NamesNodup tasks)
    (hsn : (seed.map Prod.fst).Nodup) :
    ∀ fuel st, LoopInv tasks seed st →
      (∀ n e, ¬ Event.failure n e ∈ st.trace) →
      RunOutcome tasks agentF seed (runLoop tasks agentF strat fuel st) := by
  intro fuel
  induction fuel with
  | zero =>
    intro st hinv hnf
    unfold runLoop
    by_cases hpe : pendingTasks tasks (doneNames st) = []
    · rw [if_pos hpe]
      exact ⟨hinv, fun n e hf => absurd hf (hnf n e),
        fun n e hst => RunStatus.noConfusion hst⟩
    · rw [if_neg hpe]
      exact ⟨hinv, fun n e hf => absurd hf (hnf n e),
        fun n e hst => RunStatus.noConfusion hst⟩
  | succ fuel ih =>
    intro st hinv hnf
    unfold runLoop
    by_cases hpe : pendingTasks tasks (doneNames st) = []
    · rw [if_pos hpe]
      exact ⟨hinv, fun n e hf => absurd hf (hnf n e),
        fun n e hst => RunStatus.noConfusion hst⟩
    · rw [if_neg hpe]
      split
      · exact ⟨hinv, fun n e hf => absurd hf (hnf n e),
          fun n e hst => RunStatus.noConfusion hst⟩
      · rename_i t hgc
        obtain ⟨htt, htnd, htr⟩ := mem_readyList (gatedChoice_mem hgc)
        have hdeps_done : ∀ d ∈ t.deps, d ∈ doneNames st := by
          intro d hd
          exact (memB_iff _ _).mp ((List.all_eq_true.mp htr) d hd)
        have hagg : ∃ ctx0, aggregate t.deps st.records = some ctx0 := by
          apply aggregate_isSome
          intro d hd
          exact lookupR_isSome_of_mem_keys (hdeps_done d hd)
        obtain ⟨ext, hrec⟩ := hinv.records_ext
        split
        · rename_i heq0
          obtain ⟨ctx0, hctx0⟩ := hagg
          rw [heq0] at hctx0
          exact Option.noConfusion hctx0
        · rename_i ctx heq
          have hgate_new : ∀ u, u ∈ tasks → u.name = t.name →
              ∀ d ∈ u.deps, d ∈ seed.map Prod.fst ∨ ∃ r, Event.complete d r ∈ st.trace := by
            intro u hu hun d hd
            obtain rfl : u = t := name_inj hN hu htt hun
            rcases (hinv.mem_done d).mp (hdeps_done d hd) with h1 | h2
            · exact Or.inl h1
            · exact Or.inr (mem_completesOf.mp h2)
          have hctx_new : ∀ u, u ∈ tasks → u.name = t.name →
              ∀ d v, (d, v) ∈ seed → d ∈ u.deps → (d, v) ∈ ctx := by
            intro u hu hun d v hdv hd
            obtain rfl : u = t := name_inj hN hu htt hun
            have h1 : lookupR d st.records = lookupR d seed := by
              rw [hrec]
              exact lookupR_append_of_mem (List.mem_map.mpr ⟨(d, v), hdv, rfl⟩)
            have h2 : lookupR d seed = some v := lookupR_eq_some_of_mem hsn hdv
            exact aggregate_mem_of_lookup heq d hd v (by rw [h1, h2])
          have hts_notseed : ¬ t.name ∈ seed.map Prod.fst := by
            intro hcontra
            exact htnd ((hinv.mem_done t.name).mpr (Or.inl hcontra))
          split
          · rename_i r hag
            have hre2 : ∃ ext2, st.records ++ [(t.name, r)] = seed ++ ext2 :=
              ⟨ext ++ [(t.name, r)], by rw [hrec, List.append_assoc]⟩
            have hcomp2 : completesOf (st.trace ++
                [Event.dispatch t.name ctx, Event.complete t.name r]) =
                completesOf st.trace ++ [t.name] := by
              rw [completesOf_append]
              rfl
            have hmd2 : ∀ x, x ∈ (st.records ++ [(t.name, r)]).map Prod.fst ↔
                x ∈ seed.map Prod.fst ∨ x ∈ completesOf (st.trace ++
                  [Event.dispatch t.name ctx, Event.complete t.name r]) := by
              intro x
              rw [hcomp2, List.map_append, List.mem_append, List.mem_append]
              have hmd := hinv.mem_done x
              unfold doneNames at hmd
              rw [hmd]
              simp
              tauto
            have htr2 : st.trace ++ [Event.dispatch t.name ctx, Event.complete t.name r] =
                (st.trace ++ [Event.dispatch t.name ctx]) ++ [Event.complete t.name r] := by
              simp
            have hg2 : GateProp tasks (seed.map Prod.fst)
                (st.trace ++ [Event.dispatch t.name ctx, Event.complete t.name r]) := by
              rw [htr2]
              exact gateProp_snoc_other (gateProp_snoc_dispatch hinv.gate hgate_new)
                (fun m c h => Event.noConfusion h)
            have hc2 : CadProp
                (st.trace ++ [Event.dispatch t.name ctx, Event.complete t.name r]) := by
              rw [htr2]
              exact cadProp_snoc_complete
                (cadProp_snoc_other hinv.cad (fun m rr h => Event.noConfusion h))
                ⟨ctx, List.mem_append_right _ (List.mem_singleton.mpr rfl)⟩
            have hd2 : ∀ n c, Event.dispatch n c ∈ st.trace ++
                [Event.dispatch t.name ctx, Event.complete t.name r] →
                ¬ n ∈ seed.map Prod.fst := by
              intro n c hm
              rcases List.mem_append.mp hm with h1 | h2
              · exact hinv.disp_not_seed n c h1
              · rcases List.mem_cons.mp h2 with h3 | h4
                · obtain ⟨rfl, rfl⟩ := Event.dispatch.inj h3
                  exact hts_notseed
                · exact Event.noConfusion (List.mem_singleton.mp h4)
            have hcx2 : ∀ n c, Event.dispatch n c ∈ st.trace ++
                [Event.dispatch t.name ctx, Event.complete t.name r] →
                ∀ u, u ∈ tasks → u.name = n →
                  ∀ d v, (d, v) ∈ seed → d ∈ u.deps → (d, v) ∈ c := by
              intro n c hm
              rcases List.mem_append.mp hm with h1 | h2
              · exact hinv.ctx_seeded n c h1
              · rcases List.mem_cons.mp h2 with h3 | h4
                · obtain ⟨rfl, rfl⟩ := Event.dispatch.inj h3
                  exact hctx_new
                · exact Event.noConfusion (List.mem_singleton.mp h4)
            have hnf2 : ∀ n e2, ¬ Event.failure n e2 ∈ st.trace ++
                [Event.dispatch t.name ctx, Event.complete t.name r] := by
              intro n e2 hm
              rcases List.mem_append.mp hm with h1 | h2
              · exact hnf n e2 h1
              · rcases List.mem_cons.mp h2 with h3 | h4
                · exact Event.noConfusion h3
                · exact Event.noConfusion (List.mem_singleton.mp h4)
            exact ih _ ⟨hre2, hmd2, hg2, hc2, hd2, hcx2⟩ hnf2
          · rename_i e hag
            have hcomp3 : completesOf (st.trace ++
                [Event.dispatch t.name ctx, Event.failure t.name e]) =
                completesOf st.trace := by
              rw [completesOf_append]
              simp [completesOf]
            have htr3 : st.trace ++ [Event.dispatch t.name ctx, Event.failure t.name e] =
                (st.trace ++ [Event.dispatch t.name ctx]) ++ [Event.failure t.name e] := by
              simp
            refine ⟨⟨⟨ext, hrec⟩, ?_, ?_, ?_, ?_, ?_⟩, ?_, ?_⟩
            · intro x
              show x ∈ doneNames st ↔ _
              rw [hinv.mem_done x, hcomp3]
            · show GateProp tasks (seed.map Prod.fst)
                (st.trace ++ [Event.dispatch t.name ctx, Event.failure t.name e])
              rw [htr3]
              exact gateProp_snoc_other (gateProp_snoc_dispatch hinv.gate hgate_new)
                (fun m c h => Event.noConfusion h)
            · show CadProp (st.trace ++ [Event.dispatch t.name ctx, Event.failure t.name e])
              rw [htr3]
              exact cadProp_snoc_other
                (cadProp_snoc_other hinv.cad (fun m rr h => Event.noConfusion h))
                (fun m rr h => Event.noConfusion h)
            · intro n c hm
              rcases List.mem_append.mp hm with h1 | h2
              · exact hinv.disp_not_seed n c h1
              · rcases List.mem_cons.mp h2 with h3 | h4
                · obtain ⟨rfl, rfl⟩ := Event.dispatch.inj h3
                  exact hts_notseed
                · exact Event.noConfusion (List.mem_singleton.mp h4)
            · intro n c hm
              rcases List.mem_append.mp hm with h1 | h2
              · exact hinv.ctx_seeded n c h1
              · rcases List.mem_cons.mp h2 with h3 | h4
                · obtain ⟨rfl, rfl⟩ := Event.dispatch.inj h3
                  exact hctx_new
                · exact Event.noConfusion (List.mem_singleton.mp h4)
            · intro n e2 hm
              rcases List.mem_append.mp hm with h1 | h2
              · exact absurd h1 (hnf n e2)
              · rcases List.mem_cons.mp h2 with h3 | h4
                · exact Event.noConfusion h3
                · obtain ⟨rfl, rfl⟩ := Event.failure.inj (List.mem_singleton.mp h4)
                  rfl
            · intro n e2 hst
              obtain ⟨rfl, rfl⟩ : t.name = n ∧ e = e2 := RunStatus.failed.inj hst
              refine ⟨List.mem_append_right _
                  (List.mem_cons_of_mem _ (List.mem_singleton.mpr rfl)), ?_, ?_⟩
              · intro r2 hm
                rcases List.mem_append.mp hm with h1 | h2
                · have hcm : t.name ∈ completesOf st.trace := mem_completesOf.mpr ⟨r2, h1⟩
                  exact htnd ((hinv.mem_done t.name).mpr (Or.inr hcm))
                · rcases List.mem_cons.mp h2 with h3 | h4
                  · exact Event.noConfusion h3
                  · exact Event.noConfusion (List.mem_singleton.mp h4)
              · exact ⟨ctx, List.mem_append_right _ (List.mem_cons_self _ _), hag⟩

theorem loopInv_init (tasks : List TaskDef) (seed : List (String × String)) :
    LoopInv tasks seed ⟨seed, []⟩ := by
  refine ⟨⟨[], by simp⟩, ?_, gateProp_nil _ _, cadProp_nil, ?_, ?_⟩
  · intro x
    simp [doneNames, completesOf]
  · intro n ctx h
    exact absurd h (List.not_mem_nil _)
  · intro n ctx h
    exact absurd h (List.not_mem_nil _)

theorem runPipeline_ok {tasks : List TaskDef} {agentF : AgentF} {strat : Strategy}
    {order : List String} (hb : buildOrder tasks = .ok order) :
    runPipeline tasks agentF strat = runLoop tasks agentF strat tasks.length ⟨[], []⟩ := by
  unfold runPipeline
  rw [hb]

theorem runPipeline_error {tasks : List TaskDef} {agentF : AgentF} {strat : Strategy}
    {e : GraphError} (hb : buildOrder tasks = .error e) :
    runPipeline tasks agentF strat = (RunStatus.invalid e, ⟨[], []⟩) := by
  unfold runPipeline
  rw [hb]

theorem runPipeline_outcome {tasks : List TaskDef} (agentF : AgentF) (strat : Strategy)
    {order : List String} (hN : NamesNodup tasks) (hb : buildOrder tasks = .ok order) :
    RunOutcome tasks agentF [] (runPipeline tasks agentF strat) := by
  rw [runPipeline_ok hb]
  exact runLoop_master tasks agentF strat [] hN (by simp) tasks.length ⟨[], []⟩
    (loopInv_init tasks []) (by intro n e h; exact absurd h (List.not_mem_nil _))

/-- C2: in every run, static or manager-delegated, whatever order the
strategy chooses, a task is dispatched only after every task in its declared
dependency set has completed: every dispatch event in the run trace is
preceded by completion events for all declared dependencies. -/
theorem C2_dispatch_gate :
    ∀ tasks agentF strat, NamesNodup tasks →
      ∀ pre n ctx post,
        (runPipeline tasks agentF strat).2.trace = pre ++ Event.dispatch n ctx :: post →
        ∀ t, t ∈ tasks → t.name = n →
          ∀ d ∈ t.deps, ∃ r, Event.complete d r ∈ pre := by
  intro tasks agentF strat hN pre n ctx post htr t ht htn d hd
  cases hb : buildOrder tasks with
  | error e =>
    rw [runPipeline_error hb] at htr
    exact absurd htr.symm (List.append_ne_nil_of_right_ne_nil pre (by simp))
  | ok order =>
    have hout := runPipeline_outcome agentF strat hN hb
    rcases hout.inv.gate pre n ctx post htr t ht htn d hd with h1 | h2
    · simp at h1
    · exact h2

/-- Witness for C2: a two-task chain, where the dispatch of the dependent
task is preceded by the completion of its dependency. -/
theorem C2_dispatch_gate_witness :
    ∃ r, Event.complete "A" r ∈
      [Event.dispatch "A" [], Event.complete "A" "A"] := by
  refine C2_dispatch_gate
    [⟨"A", [], "w", none⟩, ⟨"B", ["A"], "w", none⟩]
    (fun n _ => Except.ok n) (fun _ => none)
    (by unfold NamesNodup; decide)
    [Event.dispatch "A" [], Event.complete "A" "A"]
    "B" [("A", "A")]
    [Event.complete "B" "B"]
    (by rfl)
    ⟨"B", ["A"], "w", none⟩ (by simp) rfl "A" (by simp)

theorem no_dispatch_of_dep_incomplete {tasks : List TaskDef} {tr : List Event}
    (hg : GateProp tasks [] tr) (hc : CadProp tr) :
    ∀ b, (∀ r, ¬ Event.complete b r ∈ tr) →
      ∀ m, Relation.TransGen (depEdge tasks) m b →
        (∀ ctx, ¬ Event.dispatch m ctx ∈ tr) ∧ (∀ r, ¬ Event.complete m r ∈ tr) := by
  intro b hb m htg
  have key : ∀ m2 y, depEdge tasks m2 y → (∀ r, ¬ Event.complete y r ∈ tr) →
      (∀ ctx, ¬ Event.dispatch m2 ctx ∈ tr) ∧ (∀ r, ¬ Event.complete m2 r ∈ tr) := by
    intro m2 y hedge hy
    have hnd : ∀ ctx, ¬ Event.dispatch m2 ctx ∈ tr := by
      intro ctx hm
      obtain ⟨s, t2, htr⟩ := List.append_of_mem hm
      rcases hedge with ⟨u, hu, hun, hyd⟩
      rcases hg s m2 ctx t2 htr u hu hun y hyd with h1 | ⟨r, hr⟩
      · simp at h1
      · exact hy r (by rw [htr]; exact List.mem_append_left _ hr)
    have hnc : ∀ r, ¬ Event.complete m2 r ∈ tr := by
      intro r hm
      obtain ⟨s, t2, htr⟩ := List.append_of_mem hm
      obtain ⟨ctx, hdm⟩ := hc s m2 r t2 htr
      exact hnd ctx (by rw [htr]; exact List.mem_append_left _ hdm)
    exact ⟨hnd, hnc⟩
  induction htg using Relation.TransGen.head_induction_on with
  | base h => exact key _ b h hb
  | ih h1 h2 ihp => exact key _ _ h1 ihp.2

/-- C3: if a task's agent invocation fails during a run, the run terminates
with status FAILED surfacing that task identity and the underlying cause,
the task never reaches COMPLETED, and no task that transitively depends on
it is ever dispatched. -/
theorem C3_failure_semantics :
    ∀ tasks agentF strat n e, NamesNodup tasks →
      Event.failure n e ∈ (runPipeline tasks agentF strat).2.trace →
      (runPipeline tasks agentF strat).1 = RunStatus.failed n e ∧
      (∀ r, ¬ Event.complete n r ∈ (runPipeline tasks agentF strat).2.trace) ∧
      (∃ ctx, Event.dispatch n ctx ∈ (runPipeline tasks agentF strat).2.trace ∧
        agentF n ctx = Except.error e) ∧
      (∀ m, Relation.TransGen (depEdge tasks) m n →
        ∀ ctx, ¬ Event.dispatch m ctx ∈ (runPipeline tasks agentF strat).2.trace) := by
  intro tasks agentF strat n e hN hfail
  cases hb : buildOrder tasks with
  | error e2 =>
    rw [runPipeline_error hb] at hfail
    exact absurd hfail (List.not_mem_nil _)
  | ok order =>
    have hout := runPipeline_outcome agentF strat hN hb
    have hstatus := hout.fail_status n e hfail
    obtain ⟨_, hnc, hcause⟩ := hout.status_fail n e hstatus
    refine ⟨hstatus, hnc, hcause, ?_⟩
    intro m htg ctx
    have hgate : GateProp tasks [] (runPipeline tasks agentF strat).2.trace := by
      have hg0 := hout.inv.gate
      simpa using hg0
    exact (no_dispatch_of_dep_incomplete hgate hout.inv.cad n hnc m htg).1 ctx

/-- Witness for C3: a two-task chain where the first task's agent throws;
the run is FAILED at that task, it never completes, and its dependent is
never dispatched. -/
theorem C3_failure_semantics_witness :
    (runPipeline [⟨"E", [], "w", none⟩, ⟨"F", ["E"], "w", none⟩]
        (fun _ _ => Except.error "boom") (fun _ => none)).1 =
      RunStatus.failed "E" "boom" ∧
    (∀ r, ¬ Event.complete "E" r ∈
      (runPipeline [⟨"E", [], "w", none⟩, ⟨"F", ["E"], "w", none⟩]
        (fun _ _ => Except.error "boom") (fun _ => none)).2.trace) ∧
    (∃ ctx, Event.dispatch "E" ctx ∈
        (runPipeline [⟨"E", [], "w", none⟩, ⟨"F", ["E"], "w", none⟩]
          (fun _ _ => Except.error "boom") (fun _ => none)).2.trace ∧
        (fun (_ : String) (_ : List (String × String)) =>
          (Except.error "boom" : Except String String)) "E" ctx = Except.error "boom") ∧
    (∀ m, Relation.TransGen
        (depEdge [⟨"E", [], "w", none⟩, ⟨"F", ["E"], "w", none⟩]) m "E" →
      ∀ ctx, ¬ Event.dispatch m ctx ∈
        (runPipeline [⟨"E", [], "w", none⟩, ⟨"F", ["E"], "w", none⟩]
          (fun _ _ => Except.error "boom") (fun _ => none)).2.trace) := by
  have h := C3_failure_semantics
    [⟨"E", [], "w", none⟩, ⟨"F", ["E"], "w", none⟩]
    (fun _ _ => Except.error "boom") (fun _ => none) "E" "boom"
    (by unfold NamesNodup; decide)
    (by simp [runPipeline, buildOrder, firstUnknown, kahnAux, pendingTasks, memB,
      runLoop, readyList, gatedChoice, aggregate, doneNames, isReady, knownName])
  exact h

/-- C4: replay from a task identity never re-dispatches any task recorded
before that identity in the prior run, and every dispatched context carries
the previously recorded result for each such seeded dependency. -/
theorem C4_replay_no_reexecution :
    ∀ tasks agentF strat prior fromId, NamesNodup tasks →
      (prior.map Prod.fst).Nodup →
      ∀ d v, (d, v) ∈ seedOf prior fromId →
        (∀ ctx, ¬ Event.dispatch d ctx ∈
          (replayPipeline tasks agentF strat prior fromId).2.trace) ∧
        (∀ n ctx, Event.dispatch n ctx ∈
            (replayPipeline tasks agentF strat prior fromId).2.trace →
          ∀ t, t ∈ tasks → t.name = n → d ∈ t.deps → (d, v) ∈ ctx) := by
  intro tasks agentF strat prior fromId hN hpn d v hdv
  have hsn : ((seedOf prior fromId).map Prod.fst).Nodup := by
    have hsub : List.Sublist (seedOf prior fromId) prior := List.takeWhile_sublist _
    exact hpn.sublist (hsub.map Prod.fst)
  have hout := runLoop_master tasks agentF strat (seedOf prior fromId) hN hsn tasks.length
    ⟨seedOf prior fromId, []⟩ (loopInv_init _ _)
    (by intro n e h; exact absurd h (List.not_mem_nil _))
  constructor
  · intro ctx hm
    exact hout.inv.disp_not_seed d ctx hm (List.mem_map.mpr ⟨(d, v), hdv, rfl⟩)
  · intro n ctx hm t ht htn hd
    exact hout.inv.ctx_seeded n ctx hm t ht htn d v hdv hd

/-- Witness for C4: prior run completed A and B then failed at C; replay
from C never re-dispatches B and hands B's recorded result to C. -/
theorem C4_replay_no_reexecution_witness :
    (∀ ctx, ¬ Event.dispatch "B" ctx ∈
      (replayPipeline
        [⟨"A", [], "w", none⟩, ⟨"B", ["A"], "w", none⟩, ⟨"C", ["A", "B"], "w", none⟩]
        (fun n _ => Except.ok n) (fun _ => none)
        [("A", "ra"), ("B", "rb")] "C").2.trace) ∧
    (∀ n ctx, Event.dispatch n ctx ∈
        (replayPipeline
          [⟨"A", [], "w", none⟩, ⟨"B", ["A"], "w", none⟩, ⟨"C", ["A", "B"], "w", none⟩]
          (fun n _ => Except.ok n) (fun _ => none)
          [("A", "ra"), ("B", "rb")] "C").2.trace →
      ∀ t, t ∈ [⟨"A", [], "w", none⟩, ⟨"B", ["A"], "w", none⟩,
          (⟨"C", ["A", "B"], "w", none⟩ : TaskDef)] →
        t.name = n → "B" ∈ t.deps → ("B", "rb") ∈ ctx) :=
  C4_replay_no_reexecution
    [⟨"A", [], "w", none⟩, ⟨"B", ["A"], "w", none⟩, ⟨"C", ["A", "B"], "w", none⟩]
    (fun n _ => Except.ok n) (fun _ => none)
    [("A", "ra"), ("B", "rb")] "C"
    (by unfold NamesNodup; decide) (by decide) "B" "rb" (by decide)

theorem lookupR_mem {d v : String} {recs : List (String × String)}
    (h : lookupR d recs = some v) : (d, v) ∈ recs := by
  induction recs with
  | nil => exact Option.noConfusion h
  | cons p rest ih =>
    unfold lookupR at h
    by_cases hd : p.1 = d
    · rw [if_pos (beq_iff_eq.mpr hd)] at h
      obtain rfl : p.2 = v := Option.some.inj h
      have hpe : (d, p.2) = p := by
        rw [← hd]
      rw [hpe]
      exact List.mem_cons_self _ _
    · rw [if_neg (by simp [hd])] at h
      exact List.mem_cons_of_mem _ (ih h)

theorem lookupR_perm_of_nodup {recs recs2 : List (String × String)}
    (hn : (recs.map Prod.fst).Nodup) (hp : recs.Perm recs2) (d : String) :
    lookupR d recs = lookupR d recs2 := by
  have hn2 : (recs2.map Prod.fst).Nodup := ((hp.map Prod.fst).nodup_iff).mp hn
  cases h : lookupR d recs with
  | some v =>
    have hm : (d, v) ∈ recs := lookupR_mem h
    exact (lookupR_eq_some_of_mem hn2 (hp.mem_iff.mp hm)).symm
  | none =>
    cases h2 : lookupR d recs2 with
    | none => rfl
    | some v =>
      have hm2 : (d, v) ∈ recs2 := lookupR_mem h2
      have hm : (d, v) ∈ recs := hp.mem_iff.mpr hm2
      have h3 := lookupR_eq_some_of_mem hn hm
      rw [h] at h3
      exact Option.noConfusion h3

/-- C5: for a task whose dependencies all hold Execution Records, the
Context Aggregator returns the (dependency-identity, result-text) pairs in
exactly the declaration order of the dependency list, with the recorded
result of each dependency, independently of the order in which the records
were actually written. -/
theorem C5_aggregate_declaration_order :
    ∀ (t : TaskDef) (recs : List (String × String)),
      (recs.map Prod.fst).Nodup →
      (∀ d ∈ t.deps, d ∈ recs.map Prod.fst) →
      ∃ ctx, aggregate t.deps recs = some ctx ∧
        ctx.map Prod.fst = t.deps ∧
        (∀ d v, lookupR d recs = some v → d ∈ t.deps → (d, v) ∈ ctx) ∧
        ∀ recs2, recs.Perm recs2 → aggregate t.deps recs2 = some ctx := by
  intro t recs hn hall
  obtain ⟨ctx, hctx⟩ :=
    aggregate_isSome (fun d hd => lookupR_isSome_of_mem_keys (hall d hd))
  refine ⟨ctx, hctx, aggregate_fst hctx, ?_, ?_⟩
  · intro d v hv hd
    exact aggregate_mem_of_lookup hctx d hd v hv
  · intro recs2 hprm
    rw [← hctx]
    exact (aggregate_congr (fun d => lookupR_perm_of_nodup hn hprm d)).symm

/-- Witness for C5: the `validate_implementation` quality-gate task, with
its three dependency records written in a completion order different from
the declaration order. -/
theorem C5_aggregate_declaration_order_witness :
    ∃ ctx, aggregate validate_implementation.deps
        [("implement_testing_strategy", "t"), ("implement_backend_services", "b"),
         ("implement_frontend_application", "f"), ("ingest_requirements", "i")] = some ctx ∧
      ctx.map Prod.fst = validate_implementation.deps ∧
      (∀ d v, lookupR d
          [("implement_testing_strategy", "t"), ("implement_backend_services", "b"),
           ("implement_frontend_application", "f"), ("ingest_requirements", "i")] = some v →
        d ∈ validate_implementation.deps → (d, v) ∈ ctx) ∧
      ∀ recs2,
        List.Perm
          [("implement_testing_strategy", "t"), ("implement_backend_services", "b"),
           ("implement_frontend_application", "f"), ("ingest_requirements", "i")] recs2 →
        aggregate validate_implementation.deps recs2 = some ctx :=
  C5_aggregate_declaration_order validate_implementation
    [("implement_testing_strategy", "t"), ("implement_backend_services", "b"),
     ("implement_frontend_application", "f"), ("ingest_requirements", "i")]
    (by decide) (by decide)

theorem setFile_idem (files : List (List String × String)) (p : List String) (c : String) :
    setFile (setFile files p c) p c = setFile files p c := by
  induction files with
  | nil => simp [setFile]
  | cons q rest ih =>
    by_cases hq : q.1 = p
    · simp [setFile, hq]
    · simp [setFile, hq, ih]

theorem mem_addDir {dirs : List (List String)} {d x : List String}
    (h : x ∈ dirs) : x ∈ addDir dirs d := by
  unfold addDir
  split
  · exact h
  · exact List.mem_append_left _ h

theorem self_mem_addDir (dirs : List (List String)) (d : List String) :
    d ∈ addDir dirs d := by
  unfold addDir
  split
  · assumption
  · exact List.mem_append_right _ (List.mem_singleton.mpr rfl)

theorem mem_foldl_addDir {l dirs : List (List String)} {x : List String}
    (h : x ∈ dirs) : x ∈ l.foldl addDir dirs := by
  induction l generalizing dirs with
  | nil => exact h
  | cons d rest ih => exact ih (mem_addDir h)

theorem all_mem_foldl_addDir (l dirs : List (List String)) :
    ∀ x ∈ l, x ∈ l.foldl addDir dirs := by
  induction l generalizing dirs with
  | nil => intro x hx; exact absurd hx (List.not_mem_nil _)
  | cons d rest ih =>
    intro x hx
    rcases List.mem_cons.mp hx with rfl | h2
    · show x ∈ rest.foldl addDir (addDir dirs x)
      exact mem_foldl_addDir (self_mem_addDir dirs x)
    · exact ih (addDir dirs d) x h2

theorem addDir_of_mem {dirs : List (List String)} {d : List String} (h : d ∈ dirs) :
    addDir dirs d = dirs := by
  unfold addDir
  rw [if_pos h]

theorem foldl_addDir_of_all_mem {l dirs : List (List String)}
    (h : ∀ x ∈ l, x ∈ dirs) : l.foldl addDir dirs = dirs := by
  induction l with
  | nil => rfl
  | cons d rest ih =>
    show rest.foldl addDir (addDir dirs d) = dirs
    rw [addDir_of_mem (h d (List.mem_cons_self _ _))]
    exact ih (fun x hx => h x (List.mem_cons_of_mem _ hx))

theorem mkdirAll_idem (dirs : List (List String)) (p : List String) :
    mkdirAll (mkdirAll dirs p) p = mkdirAll dirs p := by
  unfold mkdirAll
  exact foldl_addDir_of_all_mem (all_mem_foldl_addDir _ _)

/-- C6: the Artifact Writer is idempotent, writing the same content twice at
the same path yields the same filesystem as writing it once, and every
parent directory of the written path is present after the write. -/
theorem C6_artifact_writer :
    ∀ (fs : FileSys) (p : List String) (c : String),
      writeArtifact (writeArtifact fs p c) p c = writeArtifact fs p c ∧
      ∀ q ∈ pathChain p.dropLast, q ∈ (writeArtifact fs p c).dirs := by
  intro fs p c
  constructor
  · show FileSys.mk (mkdirAll (mkdirAll fs.dirs p.dropLast) p.dropLast)
        (setFile (setFile fs.files p c) p c) =
      FileSys.mk (mkdirAll fs.dirs p.dropLast) (setFile fs.files p c)
    rw [mkdirAll_idem, setFile_idem]
  · intro q hq
    show q ∈ mkdirAll fs.dirs p.dropLast
    exact all_mem_foldl_addDir _ _ q hq

/-- Witness for C6: writing `output/REQUIREMENTS.md` twice on an empty
filesystem equals writing it once, and the parent directory exists. -/
theorem C6_artifact_writer_witness :
    writeArtifact (writeArtifact ⟨[], []⟩ (splitPath "output/REQUIREMENTS.md") "hello")
        (splitPath "output/REQUIREMENTS.md") "hello" =
      writeArtifact ⟨[], []⟩ (splitPath "output/REQUIREMENTS.md") "hello" ∧
    ["output"] ∈ (writeArtifact ⟨[], []⟩ (splitPath "output/REQUIREMENTS.md") "hello").dirs := by
  have h := C6_artifact_writer ⟨[], []⟩ (splitPath "output/REQUIREMENTS.md") "hello"
  exact ⟨h.1, h.2 ["output"] (by decide)⟩

/-- C7 counterexample: `main.py` exposes four module-level entry operations
and none of them is `validate`, so the interface is not the three operations
run, replay, validate. -/
theorem C7_entry_operations_counterexample :
    ¬ ("validate" ∈ mainEntryOperations ∧ mainEntryOperations.length = 3) := by
  decide

/-- C7 amended: the caller-facing entry operations are `run`, `train`,
`replay` and `test`; `run` and `replay` exist as specified but there is no
separate `validate` operation. -/
theorem C7_entry_operations_amended :
    mainEntryOperations = ["run", "train", "replay", "test"] ∧
    "run" ∈ mainEntryOperations ∧ "replay" ∈ mainEntryOperations ∧
    ¬ "validate" ∈ mainEntryOperations := by
  decide

/-- C9: the manager (`engineering_lead`) is a distinguished agent with no
task of its own: the crew runs hierarchically with it as manager, it is not
in the worker-agent registry, and it is not the assigned agent of any task
in the pipeline. -/
theorem C9_manager_no_own_task :
    softwareEngineerCrew.hierarchical = true ∧
    softwareEngineerCrew.managerAgent = "engineering_lead" ∧
    ¬ softwareEngineerCrew.managerAgent ∈ softwareEngineerCrew.agents ∧
    ∀ t ∈ softwareEngineerCrew.taskList, t.agent ≠ softwareEngineerCrew.managerAgent := by
  exact ⟨rfl, rfl, by decide, by decide⟩

/-- Witness for C9: the first pipeline task is not assigned to the manager. -/
theorem C9_manager_no_own_task_witness :
    ingest_requirements.agent ≠ softwareEngineerCrew.managerAgent :=
  C9_manager_no_own_task.2.2.2 ingest_requirements (by decide)

theorem setup_env_snd (env : List (String × String)) (fs : FileSys) :
    (setup_project_environment env fs).2 =
      { fs with dirs := outputDirs.foldl (fun ds p => mkdirAll ds (splitPath p)) fs.dirs } := by
  by_cases h : requiredEnvVars.filter (envFalsy env) = [] <;>
    simp [setup_project_environment, h]

theorem setup_env_fst (env : List (String × String)) (fs : FileSys) :
    (setup_project_environment env fs).1 = !envFalsy env "GEMINI_API_KEY" := by
  cases h : envFalsy env "GEMINI_API_KEY" <;>
    simp [setup_project_environment, requiredEnvVars, List.filter_cons, h]

theorem setup_env_dirs (env : List (String × String)) (fs : FileSys) :
    (setup_project_environment env fs).2.dirs =
      outputDirs.foldl (fun ds p => mkdirAll ds (splitPath p)) fs.dirs := by
  rw [setup_env_snd]

theorem mem_mkdirAll_of_mem {ds : List (List String)} {q p : List String}
    (h : q ∈ ds) : q ∈ mkdirAll ds p :=
  mem_foldl_addDir h

theorem self_mem_pathChain {q : List String} (h : q ≠ []) : q ∈ pathChain q := by
  unfold pathChain
  have hlen : 0 < q.length := List.length_pos.mpr h
  refine List.mem_map.mpr ⟨q.length - 1, ?_, ?_⟩
  · rw [List.mem_range]
    omega
  · rw [Nat.sub_add_cancel hlen]
    exact List.take_length q

theorem self_mem_mkdirAll {ds : List (List String)} {q : List String} (h : q ≠ []) :
    q ∈ mkdirAll ds q :=
  all_mem_foldl_addDir _ _ q (self_mem_pathChain h)

theorem mem_foldl_mkdirAll {l : List String} {ds : List (List String)} {x : List String}
    (h : x ∈ ds) : x ∈ l.foldl (fun a b => mkdirAll a (splitPath b)) ds := by
  induction l generalizing ds with
  | nil => exact h
  | cons a rest ih => exact ih (mem_mkdirAll_of_mem h)

theorem mem_dirs_foldl {l : List String} {ds : List (List String)} :
    ∀ p ∈ l, splitPath p ≠ [] →
      splitPath p ∈ l.foldl (fun a b => mkdirAll a (splitPath b)) ds := by
  induction l generalizing ds with
  | nil => intro p hp; exact absurd hp (List.not_mem_nil _)
  | cons a rest ih =>
    intro p hp hne
    rcases List.mem_cons.mp hp with rfl | h2
    · show splitPath p ∈ rest.foldl (fun a b => mkdirAll a (splitPath b))
        (mkdirAll ds (splitPath p))
      exact mem_foldl_mkdirAll (self_mem_mkdirAll hne)
    · exact ih p h2 hne

theorem splitSegs_ne_nil (l : List Char) : splitSegs l ≠ [] := by
  induction l with
  | nil => simp [splitSegs]
  | cons c rest ih =>
    unfold splitSegs
    split
    · simp
    · split
      · simp
      · simp

theorem splitPath_ne_nil (s : String) : splitPath s ≠ [] := by
  unfold splitPath
  intro h
  exact splitSegs_ne_nil s.data (List.map_eq_nil_iff.mp h)

/-- C10: `setup_project_environment` returns False exactly when
GEMINI_API_KEY is unset or empty, yet in every case all 19 output
directories have already been created, since directory creation precedes the
environment check and is never rolled back: the resulting filesystem does
not depend on the environment at all. -/
theorem C10_setup_environment :
    outputDirs.length = 19 ∧
    ∀ env fs,
      ((setup_project_environment env fs).1 = false ↔
        envFalsy env "GEMINI_API_KEY" = true) ∧
      (∀ p ∈ outputDirs, splitPath p ∈ (setup_project_environment env fs).2.dirs) ∧
      (setup_project_environment env fs).2 =
        (setup_project_environment [("GEMINI_API_KEY", "k")] fs).2 := by
  have hne_all : ∀ p ∈ outputDirs, splitPath p ≠ [] := fun p _ => splitPath_ne_nil p
  refine ⟨by decide, ?_⟩
  intro env fs
  refine ⟨?_, ?_, ?_⟩
  · rw [setup_env_fst]
    cases envFalsy env "GEMINI_API_KEY" <;> simp
  · intro p hp
    rw [setup_env_dirs]
    exact mem_dirs_foldl p hp (hne_all p hp)
  · rw [setup_env_snd, setup_env_snd]

/-- Witness for C10: with an empty environment the check fails, yet the
deepest output directory exists on the resulting filesystem. -/
theorem C10_setup_environment_witness :
    ((setup_project_environment [] ⟨[], []⟩).1 = false ↔
      envFalsy [] "GEMINI_API_KEY" = true) ∧
    splitPath "output" ∈ (setup_project_environment [] ⟨[], []⟩).2.dirs := by
  have h := (C10_setup_environment.2) [] ⟨[], []⟩
  exact ⟨h.1, h.2.1 "output" (by decide)⟩
end SWEngineer
